import Mathlib

/-!
Verification development for the workflow execution engine of the
zadmin88/nodebase repository.

The definitions below are a shallow embedding of the TypeScript sources:
  - `src/inngest/utils.ts`              (`topologicalSort`, plus the npm
    `toposort` v2.0.2 library it calls, modelled by `visit`/`toposortIds`)
  - `src/inngest/functions.ts`          (`executeWorkflow`)
  - `src/features/executions/lib/executor-registry.ts`
    (`executorRegistry`, `getExecutor`; source quoted in
    `18_NODE_EXECUTION_FEATURE.md`)
  - `src/features/triggers/components/manual-trigger/executor.ts`
    (`manualTriggerExecutor`)
  - `src/features/executions/components/http-request/executor.ts`
    (`httpRequestExecutor`; source quoted in `18_NODE_EXECUTION_FEATURE.md`)
  - `src/features/workflows/server/routers.ts` (`getOne`) and the
    `workflows.update` mutation quoted in `17_EDITOR_STATE_FEATURE.md`.

JavaScript objects are modelled as association lists of `Json` values,
thrown errors as `Except` with an explicit retriable / non-retriable tag
(Inngest treats every thrown error as retriable unless it is a
`NonRetriableError`), and the durable `step.run` primitive as an in-memory
step implementation that runs its thunk immediately (first, non-resumed run).
-/

set_option maxHeartbeats 1000000

/-- JSON values: the schema-less structured values stored in node `data`,
node `position`, and threaded through the execution context. -/
inductive Json where
  | null : Json
  | bool (b : Bool) : Json
  | num (n : Int) : Json
  | str (s : String) : Json
  | arr (elems : List Json) : Json
  | obj (fields : List (String × Json)) : Json

/-- JavaScript falsiness of a JSON value (`null`, `false`, `0`, `""`). -/
def jsFalsy : Json → Bool
  | .null => true
  | .bool b => !b
  | .num n => n == 0
  | .str s => s == ""
  | .arr _ => false
  | .obj _ => false

/-- Field access on a JSON object: `o[k]`, `none` when the key is absent or
the value is not an object.  First binding wins, as in a JS object literal. -/
def objGet : Json → String → Option Json
  | .obj fields, k => (fields.find? (fun p => p.1 == k)).map (·.2)
  | _, _ => none

/-- An execution context: a JS object mapping string keys to JSON values
(`WorkflowContext = Record<string, unknown>` in
`src/features/executions/types.ts`). -/
def Context := List (String × Json)

/-- Context lookup (first binding wins). -/
def ctxLookup (ctx : Context) (k : String) : Option Json :=
  (List.find? (fun p => p.1 == k) ctx).map (·.2)

/-- The keys present in a context. -/
def ctxKeys (ctx : Context) : List String :=
  ctx.map (·.1)

/-- Object-spread update `{...ctx, k: v}`: overwrite the first binding of `k`
in place, or append the new binding at the end — JS object key order. -/
def ctxSet : Context → String → Json → Context
  | [], k, v => [(k, v)]
  | (k', v') :: rest, k, v =>
    if k' == k then (k, v) :: rest else (k', v') :: ctxSet rest k v

/-- Whether `pat` occurs at the head of `l`. -/
def leadsWith : List Char → List Char → Bool
  | [], _ => true
  | _ :: _, [] => false
  | c :: cs, d :: ds => c == d && leadsWith cs ds

/-- Whether `pat` occurs anywhere in `l`. -/
def hasSub (pat : List Char) : List Char → Bool
  | [] => pat.isEmpty
  | d :: ds => leadsWith pat (d :: ds) || hasSub pat ds

/-- JS `String.prototype.includes`: substring containment. -/
def strContains (s pat : String) : Bool :=
  hasSub pat.toList s.toList

/-- A thrown JS error, tagged the way the Inngest transport discriminates:
a `NonRetriableError` is never retried, every other thrown error is
retriable. -/
inductive JsError where
  | retriable (message : String) : JsError
  | nonRetriable (message : String) : JsError

/-- The message carried by an error. -/
def JsError.message : JsError → String
  | .retriable m => m
  | .nonRetriable m => m

/-- Whether the transport may retry after this error. -/
def JsError.isRetriable : JsError → Bool
  | .retriable _ => true
  | .nonRetriable _ => false

/-- The `step` tools handed to each executor: one durable primitive
`run name thunk`.  Executor thunks all produce a `WorkflowContext`. -/
structure StepTools where
  run : String → (Unit → Except JsError Context) → Except JsError Context

/-- In-memory step implementation (spec §9 design note): executes the thunk
immediately, exactly once, with no durability — the behaviour of the first,
non-resumed run. -/
def inMemoryStep : StepTools :=
  ⟨fun _ thunk => thunk ()⟩

/-- `NodeExecutorParams` from `src/features/executions/types.ts`:
`{data, nodeId, context, step}`. -/
structure NodeExecutorParams where
  data : Json
  nodeId : String
  context : Context
  step : StepTools

/-- `NodeExecutor` from `src/features/executions/types.ts`. -/
def NodeExecutor := NodeExecutorParams → Except JsError Context

/-- An HTTP request as issued by the executor: endpoint URL, method, and the
optional raw body (only forwarded for body-bearing methods). -/
structure HttpRequestSpec where
  endpoint : String
  method : String
  body : Option String

/-- An HTTP response as observed through the fetch `Response` interface:
status, status text, the `content-type` header (absent allowed), the body
as text (`response.text()`), and the body as parsed JSON
(`response.json()`, which rejects when the body is not valid JSON — we keep
the parse result rather than modelling a textual JSON parser). -/
structure HttpResponse where
  status : Nat
  statusText : String
  contentType : Option String
  bodyText : String
  bodyJson : Except String Json

/-- Outcome of attempting an HTTP exchange on the wire. -/
inductive HttpOutcome where
  | networkError (message : String) : HttpOutcome
  | response (r : HttpResponse) : HttpOutcome

/-- The ambient HTTP transport (the network behind `ky`): what the wire
returns for each request.  Test fixtures are concrete values of this type. -/
def HttpEnv := HttpRequestSpec → HttpOutcome

/-- `ky(endpoint, options)` (ky v1.14.0): resolves with the response when the
status is in the 2xx range, rejects with an `HTTPError` for other statuses
(`throwHttpErrors` defaults to true), and rejects with the network error
otherwise.  Neither rejection is an Inngest `NonRetriableError`, so both are
retriable. -/
def kyCall (env : HttpEnv) (req : HttpRequestSpec) : Except JsError HttpResponse :=
  match env req with
  | .networkError m => .error (.retriable m)
  | .response r =>
    if 200 ≤ r.status ∧ r.status ≤ 299 then .ok r
    else .error (.retriable ("Request failed with status code " ++ toString r.status))

/-- `manualTriggerExecutor` from
`src/features/triggers/components/manual-trigger/executor.ts`: checkpoints
the incoming context unchanged via `step.run("manual-trigger", ...)` and
returns it. -/
def manualTriggerExecutor : NodeExecutor := fun params => do
  let result ← params.step.run "manual-trigger" (fun _ => .ok params.context)
  .ok result

/-- String field of the loose `HttpRequestData` record: the executor reads
`data.endpoint` / `data.method` / `data.body`, all typed as optional strings
by the TS cast. -/
def dataStr (data : Json) (k : String) : Option String :=
  match objGet data k with
  | some (.str s) => some s
  | _ => none

/-- `contentType?.includes("application/json")`: whether the response's
`content-type` header (when present) contains `application/json`. -/
def ctIsJson (r : HttpResponse) : Bool :=
  match r.contentType with
  | some ct => strContains ct "application/json"
  | none => false

/-- `httpRequestExecutor` from
`src/features/executions/components/http-request/executor.ts` (quoted in
`18_NODE_EXECUTION_FEATURE.md`): fails non-retriably when `data.endpoint`
is absent or empty; otherwise, inside `step.run("http-request", ...)`,
issues the request via ky with `data.method || "GET"`, forwarding
`data.body` only for POST/PUT/PATCH, then decodes the body as JSON when the
`content-type` header contains `application/json` (raw text otherwise) and
returns `{...context, httpResponse: {status, statusText, data}}`. -/
def httpRequestExecutor (env : HttpEnv) : NodeExecutor := fun params =>
  match dataStr params.data "endpoint" with
  | none => .error (.nonRetriable "HTTP Request node: No endpoint configured")
  | some endpoint =>
    if endpoint == "" then
      .error (.nonRetriable "HTTP Request node: No endpoint configured")
    else
      params.step.run "http-request" (fun _ => do
        let method :=
          match dataStr params.data "method" with
          | none => "GET"
          | some m => if m == "" then "GET" else m
        let body :=
          if ["POST", "PUT", "PATCH"].contains method then dataStr params.data "body"
          else none
        let response ← kyCall env ⟨endpoint, method, body⟩
        let isJson := ctIsJson response
        let responseData ←
          if isJson then
            match response.bodyJson with
            | .ok j => Except.ok j
            | .error m => Except.error (JsError.retriable m)
          else
            Except.ok (Json.str response.bodyText)
        .ok (ctxSet params.context "httpResponse"
          (Json.obj [("status", .num response.status),
                     ("statusText", .str response.statusText),
                     ("data", responseData)])))

/-- The closed `NodeType` enumeration from the Prisma schema. -/
inductive NodeType where
  | MANUAL_TRIGGER : NodeType
  | INITIAL : NodeType
  | HTTP_REQUEST : NodeType

/-- The string tag under which a `NodeType` value is stored in the database
and used as registry key. -/
def NodeType.tag : NodeType → String
  | .MANUAL_TRIGGER => "MANUAL_TRIGGER"
  | .INITIAL => "INITIAL"
  | .HTTP_REQUEST => "HTTP_REQUEST"

/-- `executorRegistry` from
`src/features/executions/lib/executor-registry.ts`: MANUAL_TRIGGER and
INITIAL both map to `manualTriggerExecutor` (INITIAL is an alias),
HTTP_REQUEST maps to `httpRequestExecutor`.  Keys are the runtime string
tags (TS enum values are erased to strings). -/
def executorRegistry (env : HttpEnv) (t : String) : Option NodeExecutor :=
  if t == "MANUAL_TRIGGER" then some manualTriggerExecutor
  else if t == "INITIAL" then some manualTriggerExecutor
  else if t == "HTTP_REQUEST" then some (httpRequestExecutor env)
  else none

/-- `getExecutor` from `src/features/executions/lib/executor-registry.ts`:
registry lookup; an unregistered tag throws a plain `Error` (retriable for
the transport) with message `"No executor found for node type: T"`. -/
def getExecutor (env : HttpEnv) (t : String) : Except JsError NodeExecutor :=
  match executorRegistry env t with
  | some e => .ok e
  | none => .error (.retriable ("No executor found for node type: " ++ t))

/-- A node row (Prisma `Node`): id, display name, type tag, canvas position
and the schema-less `data` value (both stored as opaque JSON). -/
structure Node where
  id : String
  name : String
  type : String
  position : Json
  data : Json

/-- A connection row (Prisma `Connection`): a directed edge between two nodes
of the same workflow with output/input handle names. -/
structure Connection where
  id : String
  fromNodeId : String
  toNodeId : String
  fromOutput : String
  toInput : String

/-- A workflow with its graph included, as loaded by
`prisma.workflow.findUniqueOrThrow({include: {nodes, connections}})`. -/
structure Workflow where
  id : String
  name : String
  nodes : List Node
  connections : List Connection

/-- Append `x` unless already present: one `Set.add` step of the JS `Set`
used by the toposort library (insertion order, first occurrence kept). -/
def addUnique (l : List String) (x : String) : List String :=
  if x ∈ l then l else l ++ [x]

/-- `uniqueNodes(edges)` from toposort v2.0.2: all edge endpoints in first
occurrence order (each edge contributes its source then its target). -/
def uniqueNodes (edges : List (String × String)) : List String :=
  edges.foldl (fun acc e => addUnique (addUnique acc e.1) e.2) []

/-- Worker for `dedupFirst`: drop elements already `seen`. -/
def dedupFirstAux (seen : List String) : List String → List String
  | [] => []
  | x :: xs =>
    if x ∈ seen then dedupFirstAux seen xs else x :: dedupFirstAux (x :: seen) xs

/-- `[...new Set(l)]`: deduplicate keeping the first occurrence of each
element. -/
def dedupFirst (l : List String) : List String :=
  dedupFirstAux [] l

/-- `makeOutgoingEdges` from toposort v2.0.2 read as a successor function:
the distinct targets of `u`'s edges in first-occurrence order. -/
def adjOf (edges : List (String × String)) (u : String) : List String :=
  dedupFirst (edges.filterMap (fun e => if e.1 = u then some e.2 else none))

/-- The mutable state of the library's DFS: the `visited` index set and the
`sorted` output array, which is filled back-to-front (head of `acc` is the
most recently finished node, i.e. the front of the final output). -/
structure TState where
  visited : List String
  acc : List String

/-- The failures of toposort v2.0.2's `visit`: a node on the current DFS
path revisited (message `"Cyclic dependency, node was:…"`), a node missing
from the node universe (message `"Found unknown node…"` / the unknown-edge
pre-check), and — an artifact of the fuel-based embedding only, unreachable
for the fuel the callers supply — fuel exhaustion. -/
inductive ToposortErr where
  | cyclic (node : String) : ToposortErr
  | unknownNode (node : String) : ToposortErr
  | fuelOut : ToposortErr

/-- `visit(node, i, predecessors)` from toposort v2.0.2: throws when `node`
is on the current DFS path (`predecessors`), throws when `node` is not in
the node universe, returns early when already visited, and otherwise marks
`node` visited, recurses into its outgoing targets from last to first
(the `do { visit(child, …) } while (i)` loop, here a `foldlM`) with `node`
pushed onto the path, then places `node` at the front of the output
(`sorted[--cursor] = node`).  `fuel` only bounds the recursion depth. -/
def visit (adj : String → List String) (nodes : List String) :
    Nat → String → List String → TState → Except ToposortErr TState
  | 0, _, _, _ => .error .fuelOut
  | fuel + 1, node, preds, s =>
    if node ∈ preds then .error (.cyclic node)
    else if node ∉ nodes then .error (.unknownNode node)
    else if node ∈ s.visited then .ok s
    else
      match (adj node).reverse.foldlM
          (fun t c => visit adj nodes fuel c (node :: preds) t)
          (⟨node :: s.visited, s.acc⟩ : TState) with
      | .error e => .error e
      | .ok s₂ => .ok ⟨s₂.visited, node :: s₂.acc⟩

/-- The `while (i--) if (!visited[i]) visit(nodes[i], i, new Set())` driver:
the node universe traversed from the last entry to the first, each root
explored with a fresh empty path.  The caller passes `nodes.reverse`. -/
def rootsLoop (adj : String → List String) (nodes : List String) (fuel : Nat) :
    List String → TState → Except ToposortErr TState
  | [], s => .ok s
  | n :: ns, s =>
    if n ∈ s.visited then rootsLoop adj nodes fuel ns s
    else
      match visit adj nodes fuel n [] s with
      | .error e => .error e
      | .ok s' => rootsLoop adj nodes fuel ns s'

/-- `toposort(edges)` from toposort v2.0.2: derive the node universe from
the edges, check every edge endpoint is a known node, and run the DFS over
all roots.  The fuel `|nodes| + 1` strictly dominates the DFS path length,
so the `fuelOut` artifact is unreachable. -/
def toposortIds (edges : List (String × String)) : Except ToposortErr (List String) :=
  let nodes := uniqueNodes edges
  if edges.any (fun e => ¬ e.1 ∈ nodes ∨ ¬ e.2 ∈ nodes) then
    .error (.unknownNode "")
  else
    match rootsLoop (adjOf edges) nodes (nodes.length + 1) nodes.reverse ⟨[], []⟩ with
    | .error e => .error e
    | .ok s => .ok s.acc

/-- `new Map(nodes.map(n => [n.id, n])).get(id)`: last binding wins. -/
def nodeMapGet (nodes : List Node) (id : String) : Option Node :=
  nodes.reverse.find? (fun n => n.id == id)

/-- `topologicalSort` from `src/inngest/utils.ts`: with no connections the
nodes are returned as given; otherwise the connections become edges, every
node appearing in no connection is added as a self-edge "to ensure it is
included", the edge list is sorted by the toposort library (any error whose
message contains `"Cyclic"` — exactly the `cyclic` outcomes — is replaced
by `Error("Workflow contains a cycle")`, others are rethrown), duplicates
are removed keeping first occurrences, and the surviving identifiers are
mapped back to node objects, dropping identifiers without a node. -/
def topologicalSort (nodes : List Node) (connections : List Connection) :
    Except String (List Node) :=
  if connections.length = 0 then .ok nodes
  else
    let edges := connections.map (fun c => (c.fromNodeId, c.toNodeId))
    let connectedNodeIds :=
      connections.foldl (fun acc c => addUnique (addUnique acc c.fromNodeId) c.toNodeId) []
    let selfEdges :=
      (nodes.filter (fun n => n.id ∉ connectedNodeIds)).map (fun n => (n.id, n.id))
    match toposortIds (edges ++ selfEdges) with
    | .error (.cyclic _) => .error "Workflow contains a cycle"
    | .error (.unknownNode n) => .error ("Found unknown node: " ++ n)
    | .error .fuelOut => .error "fuel exhausted (unreachable model artifact)"
    | .ok sortedNodeIds =>
      .ok ((dedupFirst sortedNodeIds).filterMap (fun id => nodeMapGet nodes id))

/-- The value returned by a workflow execution: `{workflowId, context}`. -/
structure RunResult where
  workflowId : String
  context : Context

/-- `executeWorkflow` from `src/inngest/functions.ts`: reject a missing (or
empty, JS falsiness) workflow id non-retriably; inside
`step.run("prepare-workflow", …)` load the workflow (`findUniqueOrThrow`
throws a plain, retriable error when absent) and topologically sort its
nodes; seed the context with `event.data.initialData || {}`; then loop over
the sorted nodes looking up each node's executor in the registry — the
source's loop body contains only the lookup (`const executor =
getExecutor(node.type as NodeType)`) and the comment "Execution logic would
follow here": no executor is invoked and the context is never updated —
and finally return `{workflowId, context}`. -/
def executeWorkflow (env : HttpEnv) (db : List Workflow)
    (workflowId : Option String) (initialData : Option Context) :
    Except JsError RunResult :=
  match workflowId with
  | none => .error (.nonRetriable "Workflow ID is missing")
  | some wid =>
    if wid == "" then .error (.nonRetriable "Workflow ID is missing")
    else
      match db.find? (fun w => w.id == wid) with
      | none => .error (.retriable "No Workflow found")
      | some workflow =>
        match topologicalSort workflow.nodes workflow.connections with
        | .error m => .error (.retriable m)
        | .ok sortedNodes =>
          let context := initialData.getD []
          match sortedNodes.foldlM
              (fun (_ : Unit) node => (getExecutor env node.type).map (fun _ => ())) () with
          | .error e => .error e
          | .ok _ => .ok ⟨wid, context⟩

/-- A node in the save payload of the `workflows.update` mutation
(`z.object({id, type: z.string().nullish(), position, data: z.record(...).optional()})`,
quoted in `17_EDITOR_STATE_FEATURE.md`). -/
structure SaveNode where
  id : String
  type : Option String
  position : Json
  data : Option Json

/-- An edge in the save payload (`{source, target, sourceHandle?, targetHandle?}`). -/
structure SaveEdge where
  source : String
  target : String
  sourceHandle : Option String
  targetHandle : Option String

/-- The `{nodes, edges}` save payload. -/
structure SavePayload where
  nodes : List SaveNode
  edges : List SaveEdge

/-- The stored graph of one workflow: its node and connection rows. -/
structure GraphState where
  nodes : List Node
  connections : List Connection

/-- JS `x || "fallback"` on an optional string (absent and `""` are falsy). -/
def strOrD (s : Option String) (fallback : String) : String :=
  match s with
  | none => fallback
  | some v => if v == "" then fallback else v

/-- Whether a string is a member of the Prisma `NodeType` enumeration —
the database constraint the `node.type as NodeType` cast is checked
against when the row is inserted. -/
def validNodeType (t : String) : Bool :=
  t == "MANUAL_TRIGGER" || t == "INITIAL" || t == "HTTP_REQUEST"

/-- The node row created for one submitted node:
`{id, name: node.type || "unknown", type: node.type as NodeType,
position: node.position, data: node.data || {}}`.  `none` when the insert
violates the enum column constraint (absent or unknown `type`). -/
def saveNodeRow (n : SaveNode) : Option Node :=
  match n.type with
  | none => none
  | some t =>
    if validNodeType t then
      some ⟨n.id, strOrD n.type "unknown", t, n.position,
        (match n.data with
         | none => Json.obj []
         | some d => if jsFalsy d then Json.obj [] else d)⟩
    else none

/-- The connection row created for one submitted edge:
`{fromNodeId: edge.source, toNodeId: edge.target,
fromOutput: edge.sourceHandle || "main", toInput: edge.targetHandle || "main"}`;
the row id is database-generated (`i` stands in for it and is never read
back by the claims). -/
def saveEdgeRow (i : Nat) (e : SaveEdge) : Connection :=
  ⟨"conn-" ++ toString i, e.source, e.target,
    strOrD e.sourceHandle "main", strOrD e.targetHandle "main"⟩

/-- The `workflows.update` mutation's transaction body (quoted in
`17_EDITOR_STATE_FEATURE.md`): delete every node of the workflow (cascading
to its connections), re-insert the submitted nodes and edges, and bump the
timestamp.  Fails — rolling the transaction back — when a node row violates
the `NodeType` enum constraint. -/
def updateWorkflowGraph (payload : SavePayload) : Except JsError GraphState :=
  match payload.nodes.mapM saveNodeRow with
  | none => .error (.retriable "Invalid value for column type")
  | some rows =>
    .ok ⟨rows, (payload.edges.enum.map (fun p => saveEdgeRow p.1 p.2))⟩

/-- A node as returned by the `getOne` query of
`src/features/workflows/server/routers.ts`:
`{id, type, position, data: (node.data as Record<string, unknown>) || {}}`. -/
structure LoadedNode where
  id : String
  type : String
  position : Json
  data : Json

/-- An edge as returned by `getOne`:
`{id, source: fromNodeId, target: toNodeId, sourceHandle: fromOutput,
targetHandle: toInput}`. -/
structure LoadedEdge where
  id : String
  source : String
  target : String
  sourceHandle : String
  targetHandle : String

/-- The `getOne` transformation of one stored node row. -/
def loadNode (n : Node) : LoadedNode :=
  ⟨n.id, n.type, n.position, if jsFalsy n.data then Json.obj [] else n.data⟩

/-- The `getOne` transformation of one stored connection row. -/
def loadEdge (c : Connection) : LoadedEdge :=
  ⟨c.id, c.fromNodeId, c.toNodeId, c.fromOutput, c.toInput⟩

/-- Loading the workflow graph through `getOne`: nodes and edges in their
react-flow (execution) shape. -/
def loadGraph (g : GraphState) : List LoadedNode × List LoadedEdge :=
  (g.nodes.map loadNode, g.connections.map loadEdge)

/-! ## Helper lemmas -/

theorem exceptBind_eq_ok {ε α β : Type} {x : Except ε α} {f : α → Except ε β} {b : β}
    (h : x >>= f = .ok b) : ∃ a, x = .ok a ∧ f a = .ok b := by
  cases x with
  | error e => simp [Bind.bind, Except.bind] at h
  | ok a => exact ⟨a, rfl, by simpa [Bind.bind, Except.bind] using h⟩

theorem exceptBind_ok {ε α β : Type} (a : α) (f : α → Except ε β) :
    (Except.ok a : Except ε α) >>= f = f a := rfl

theorem mem_ctxKeys_ctxSet (ctx : Context) (k' : String) (v : Json) (k : String)
    (h : k ∈ ctxKeys ctx) : k ∈ ctxKeys (ctxSet ctx k' v) := by
  induction ctx with
  | nil => simp [ctxKeys] at h
  | cons hd tl ih =>
    rcases hd with ⟨k₀, v₀⟩
    simp only [ctxKeys, List.map_cons, List.mem_cons] at h
    by_cases hk : k₀ == k'
    · simp only [ctxSet, if_pos hk, ctxKeys, List.map_cons, List.mem_cons]
      rcases h with h | h
      · exact Or.inl (h.trans (by simpa using hk))
      · exact Or.inr h
    · simp only [ctxSet, if_neg hk, ctxKeys, List.map_cons, List.mem_cons]
      rcases h with h | h
      · exact Or.inl h
      · exact Or.inr (ih h)

/-! ## Fixtures used by concrete theorems -/

/-- S2 fixture: the wire answers every request with
status 200 `OK`, `Content-Type: application/json`, body `{"x":42}`. -/
def s2Env : HttpEnv := fun _ =>
  .response ⟨200, "OK", some "application/json", "\x7b\"x\":42\x7d",
    .ok (.obj [("x", .num 42)])⟩

/-- S2 fixture: the MANUAL_TRIGGER entry node. -/
def s2TriggerNode : Node := ⟨"n1", "n1", "MANUAL_TRIGGER", .obj [], .obj []⟩

/-- S2 fixture: the HTTP_REQUEST node configured with the fixture endpoint. -/
def s2HttpNode : Node :=
  ⟨"n2", "n2", "HTTP_REQUEST", .obj [],
    .obj [("endpoint", .str "http://test/a"), ("method", .str "GET")]⟩

/-- S2 fixture: the workflow `n1 → n2`. -/
def s2Workflow : Workflow :=
  ⟨"w1", "s2", [s2TriggerNode, s2HttpNode], [⟨"c1", "n1", "n2", "main", "main"⟩]⟩

/-! ## Claim theorems -/

/-- C1: the spec's runner contract — invoke each sorted node's executor and
thread the returned context into the final result — does not hold of the
code: `executeWorkflow`'s node loop only looks up the executor and never
invokes it, so executing the S2 chain (MANUAL_TRIGGER → HTTP_REQUEST whose
fixture returns JSON `{"x":42}`) with no initial data yields the empty
context with no `httpResponse` key, even though `httpRequestExecutor`
itself, run on the same fixture, does produce the expected `httpResponse`. -/
theorem c1_runner_skips_executor_invocation :
    executeWorkflow s2Env [s2Workflow] (some "w1") none = .ok ⟨"w1", []⟩
    ∧ ctxLookup [] "httpResponse" = none
    ∧ httpRequestExecutor s2Env ⟨s2HttpNode.data, "n2", [], inMemoryStep⟩ =
        .ok [("httpResponse", Json.obj
          [("status", .num 200), ("statusText", .str "OK"),
           ("data", Json.obj [("x", .num 42)])])] :=
  ⟨rfl, rfl, rfl⟩

/-- C2: the spec requires isolated nodes to appear in the topological
output, but the code's synthetic self-edges are genuine cycles for the
toposort library: on nodes `{a,b,c}` with the single connection `a→b`, the
isolated node `c` becomes the self-edge `c→c` and `topologicalSort` raises
`Error("Workflow contains a cycle")` instead of returning a permutation of
the three nodes. -/
theorem c2_isolated_node_raises_cycle_error :
    topologicalSort
      [⟨"a", "a", "MANUAL_TRIGGER", .obj [], .obj []⟩,
       ⟨"b", "b", "HTTP_REQUEST", .obj [], .obj []⟩,
       ⟨"c", "c", "HTTP_REQUEST", .obj [], .obj []⟩]
      [⟨"c1", "a", "b", "main", "main"⟩] = .error "Workflow contains a cycle" :=
  rfl

/-- C10: the executor registry covers the whole `NodeType` enumeration —
MANUAL_TRIGGER and INITIAL (alias) map to `manualTriggerExecutor` and
HTTP_REQUEST to `httpRequestExecutor` — so `getExecutor` succeeds on every
enumeration tag and its "No executor found for node type" branch is
unreachable for enumeration values. -/
theorem c10_registry_total_on_enum (env : HttpEnv) :
    getExecutor env "MANUAL_TRIGGER" = .ok manualTriggerExecutor
    ∧ getExecutor env "INITIAL" = .ok manualTriggerExecutor
    ∧ getExecutor env "HTTP_REQUEST" = .ok (httpRequestExecutor env)
    ∧ ∀ nt : NodeType, ∃ ex, getExecutor env (NodeType.tag nt) = .ok ex := by
  refine ⟨rfl, rfl, rfl, ?_⟩
  intro nt
  cases nt <;> exact ⟨_, rfl⟩

/-- C8 counterexample: at the unregistered tag `"DATABASE_QUERY"`,
`getExecutor` throws a plain — hence retriable — `Error` whose message is
`"No executor found for node type: DATABASE_QUERY"`, which is not
non-retriable and does not contain the claimed text
`"No executor for type"`. -/
theorem c8_counterexample :
    getExecutor s2Env "DATABASE_QUERY" =
      .error (.retriable "No executor found for node type: DATABASE_QUERY")
    ∧ strContains "No executor found for node type: DATABASE_QUERY"
        "No executor for type" = false :=
  ⟨rfl, by decide⟩

/-- C8 (amended): looking up an unregistered node-type tag fails with a
plain retriable `Error` carrying the message
`"No executor found for node type: T"`, while lookup succeeds for every tag
of the enumeration. -/
theorem c8_registry_lookup_amended :
    (∀ (env : HttpEnv) (t : String), executorRegistry env t = none →
      getExecutor env t = .error (.retriable ("No executor found for node type: " ++ t)))
    ∧ ∀ (env : HttpEnv) (nt : NodeType), ∃ ex, getExecutor env (NodeType.tag nt) = .ok ex := by
  constructor
  · intro env t h
    simp [getExecutor, h]
  · intro env nt
    cases nt <;> exact ⟨_, rfl⟩

/-- C8 witness: the amended statement applied at the concrete unregistered
tag `"DATABASE_QUERY"` and at the enumeration value `INITIAL`. -/
theorem c8_witness :
    getExecutor s2Env "DATABASE_QUERY" =
      .error (.retriable ("No executor found for node type: " ++ "DATABASE_QUERY"))
    ∧ ∃ ex, getExecutor s2Env (NodeType.tag .INITIAL) = .ok ex :=
  ⟨c8_registry_lookup_amended.1 s2Env "DATABASE_QUERY" rfl,
   c8_registry_lookup_amended.2 s2Env .INITIAL⟩

/-- C5: the HTTP-request executor's failure classification — an absent or
empty `endpoint` fails with the non-retriable error
`"HTTP Request node: No endpoint configured"`, while a network error and an
HTTP response with status ≥ 400 (e.g. a 503) surface as plain retriable
errors. -/
theorem c5_http_error_classification :
    (∀ (env : HttpEnv) (data : Json) (nodeId : String) (ctx : Context),
      (dataStr data "endpoint" = none ∨ dataStr data "endpoint" = some "") →
      httpRequestExecutor env ⟨data, nodeId, ctx, inMemoryStep⟩ =
        .error (.nonRetriable "HTTP Request node: No endpoint configured"))
    ∧ (∀ (data : Json) (nodeId : String) (ctx : Context) (e m : String),
      dataStr data "endpoint" = some e → e ≠ "" →
      httpRequestExecutor (fun _ => .networkError m) ⟨data, nodeId, ctx, inMemoryStep⟩ =
        .error (.retriable m))
    ∧ (∀ (data : Json) (nodeId : String) (ctx : Context) (e : String) (r : HttpResponse),
      dataStr data "endpoint" = some e → e ≠ "" → 400 ≤ r.status →
      httpRequestExecutor (fun _ => .response r) ⟨data, nodeId, ctx, inMemoryStep⟩ =
        .error (.retriable ("Request failed with status code " ++ toString r.status))) := by
  refine ⟨?_, ?_, ?_⟩
  · intro env data nodeId ctx h
    rcases h with h | h <;> simp [httpRequestExecutor, h]
  · intro data nodeId ctx e m h1 h2
    simp only [httpRequestExecutor, h1]
    rw [if_neg (by simp [h2])]
    rfl
  · intro data nodeId ctx e r h1 h2 h3
    simp only [httpRequestExecutor, h1]
    rw [if_neg (by simp [h2])]
    simp only [inMemoryStep, kyCall]
    rw [if_neg (by omega)]
    rfl

/-- C5 witness: the classification applied at concrete inputs — empty
configuration (S6), a network error, and a 503 response (both with the S2
node data). -/
theorem c5_witness :
    httpRequestExecutor s2Env ⟨.obj [], "n2", [], inMemoryStep⟩ =
      .error (.nonRetriable "HTTP Request node: No endpoint configured")
    ∧ httpRequestExecutor (fun _ => .networkError "getaddrinfo ENOTFOUND")
        ⟨s2HttpNode.data, "n2", [], inMemoryStep⟩ =
      .error (.retriable "getaddrinfo ENOTFOUND")
    ∧ httpRequestExecutor
        (fun _ => .response ⟨503, "Service Unavailable", some "text/plain", "oops", .error "x"⟩)
        ⟨s2HttpNode.data, "n2", [], inMemoryStep⟩ =
      .error (.retriable ("Request failed with status code " ++ toString 503)) :=
  ⟨c5_http_error_classification.1 s2Env (.obj []) "n2" [] (Or.inl rfl),
   c5_http_error_classification.2.1 s2HttpNode.data "n2" [] "http://test/a"
     "getaddrinfo ENOTFOUND" rfl (by decide),
   c5_http_error_classification.2.2 s2HttpNode.data "n2" [] "http://test/a"
     ⟨503, "Service Unavailable", some "text/plain", "oops", .error "x"⟩ rfl (by decide)
     (by decide)⟩

/-- C6: on a successful HTTP call the executor returns
`{...context, httpResponse: {status, statusText, data}}` — exactly the keys
`status`, `statusText`, `data` — where `data` is the parsed JSON body
exactly when the response's `Content-Type` contains `application/json`
(the code's `includes` check, which also covers the spec's "begins with"
phrasing) and the raw body text otherwise. -/
theorem c6_http_response_shape
    (r : HttpResponse) (data : Json) (nodeId : String) (ctx : Context)
    (e : String) (j : Json)
    (h1 : dataStr data "endpoint" = some e) (h2 : e ≠ "")
    (h3 : 200 ≤ r.status) (h4 : r.status ≤ 299)
    (h5 : ctIsJson r = true → r.bodyJson = .ok j) :
    httpRequestExecutor (fun _ => .response r) ⟨data, nodeId, ctx, inMemoryStep⟩ =
      .ok (ctxSet ctx "httpResponse" (Json.obj
        [("status", .num r.status), ("statusText", .str r.statusText),
         ("data", if ctIsJson r then j else .str r.bodyText)])) := by
  simp only [httpRequestExecutor, h1]
  rw [if_neg (by simp [h2])]
  simp only [inMemoryStep]
  have hky : ∀ req, kyCall (fun _ => .response r) req = Except.ok r := by
    intro req
    simp [kyCall]
    exact ⟨h3, h4⟩
  simp only [hky, exceptBind_ok]
  cases hj : ctIsJson r with
  | true =>
    simp only [hj, h5 hj, exceptBind_ok]
    simp only [if_pos trivial]
  | false =>
    simp only [hj, exceptBind_ok, Bool.false_eq_true, if_false]

/-- C6 witness: the S8 fixture — `Content-Type: text/plain`, body
`"hello"` — yields `httpResponse.data` equal to the string `"hello"`. -/
theorem c6_witness :
    httpRequestExecutor
      (fun _ => .response ⟨200, "OK", some "text/plain", "hello", .error "not json"⟩)
      ⟨s2HttpNode.data, "n2", [], inMemoryStep⟩ =
      .ok [("httpResponse", Json.obj
        [("status", .num 200), ("statusText", .str "OK"),
         ("data", Json.str "hello")])] := by
  have h := c6_http_response_shape
    ⟨200, "OK", some "text/plain", "hello", .error "not json"⟩
    s2HttpNode.data "n2" [] "http://test/a" Json.null rfl (by decide)
    (by decide) (by decide) (by intro hct; exact absurd hct (by decide))
  simpa using h

/-- C9: context monotonicity of the executors — `manualTriggerExecutor`
returns its input context unchanged (identity), and every key present in
`httpRequestExecutor`'s input context is still present in the context it
returns (executors are modelled as pure functions, so the input value is
never mutated). -/
theorem c9_context_monotonicity :
    (∀ (data : Json) (nodeId : String) (ctx : Context),
      manualTriggerExecutor ⟨data, nodeId, ctx, inMemoryStep⟩ = .ok ctx)
    ∧ (∀ (env : HttpEnv) (data : Json) (nodeId : String) (ctx out : Context),
      httpRequestExecutor env ⟨data, nodeId, ctx, inMemoryStep⟩ = .ok out →
      ∀ k, k ∈ ctxKeys ctx → k ∈ ctxKeys out) := by
  constructor
  · intro data nodeId ctx
    rfl
  · intro env data nodeId ctx out hexec k hk
    simp only [httpRequestExecutor, inMemoryStep] at hexec
    split at hexec
    · exact absurd hexec (by simp)
    · split at hexec
      · exact absurd hexec (by simp)
      · obtain ⟨resp, hky, hrest⟩ := exceptBind_eq_ok hexec
        have key : ∃ d, (Except.ok (ctxSet ctx "httpResponse"
            (Json.obj [("status", .num resp.status),
                       ("statusText", .str resp.statusText),
                       ("data", d)])) : Except JsError Context) = .ok out := by
          split at hrest
          · split at hrest
            · simp only [exceptBind_ok] at hrest
              exact ⟨_, hrest⟩
            · exact absurd hrest (by simp [Bind.bind, Except.bind])
          · simp only [exceptBind_ok] at hrest
            exact ⟨_, hrest⟩
        obtain ⟨d, hfin⟩ := key
        have hout : ctxSet ctx "httpResponse"
            (Json.obj [("status", .num resp.status),
                       ("statusText", .str resp.statusText),
                       ("data", d)]) = out := by
          simpa using hfin
        rw [← hout]
        exact mem_ctxKeys_ctxSet ctx "httpResponse" _ k hk

/-- C9 witness: the identity of the manual trigger at a concrete context,
and key preservation (`"seed"`) through a concrete successful HTTP call. -/
theorem c9_witness :
    manualTriggerExecutor ⟨.obj [], "n1", [("seed", Json.num 1)], inMemoryStep⟩ =
      .ok [("seed", Json.num 1)]
    ∧ "seed" ∈ ctxKeys [("seed", Json.num 1),
        ("httpResponse", Json.obj
          [("status", .num 200), ("statusText", .str "OK"),
           ("data", Json.obj [("x", .num 42)])])] :=
  ⟨c9_context_monotonicity.1 (.obj []) "n1" [("seed", Json.num 1)],
   c9_context_monotonicity.2 s2Env s2HttpNode.data "n2" [("seed", Json.num 1)]
     [("seed", Json.num 1),
      ("httpResponse", Json.obj
        [("status", .num 200), ("statusText", .str "OK"),
         ("data", Json.obj [("x", .num 42)])])]
     rfl "seed" (by simp [ctxKeys])⟩

/-- Option-`mapM` read as a pointwise relation. -/
theorem mapM_option_forall2 {α β : Type} (f : α → Option β) :
    ∀ (l : List α) (l' : List β), l.mapM f = some l' →
    List.Forall₂ (fun a b => f a = some b) l l' := by
  intro l
  induction l with
  | nil =>
    intro l' h
    simp only [List.mapM_nil, pure, Option.some.injEq] at h
    subst h
    exact .nil
  | cons a as ih =>
    intro l' h
    rw [List.mapM_cons] at h
    cases hfa : f a with
    | none => rw [hfa] at h; simp at h
    | some b =>
      rw [hfa] at h
      cases hrest : as.mapM f with
      | none => rw [hrest] at h; simp at h
      | some bs =>
        rw [hrest] at h
        simp only [Option.bind_eq_bind, Option.some_bind, pure, Option.some.injEq] at h
        subst h
        exact .cons hfa (ih bs hrest)

/-- The payload of the C7 counterexample: one valid node and one edge whose
handles are both absent (react-flow submits `null` handles for plain
connections). -/
def c7Payload : SavePayload :=
  ⟨[⟨"n1", some "MANUAL_TRIGGER", Json.obj [("x", .num 0), ("y", .num 0)],
     some (Json.obj [])⟩],
   [⟨"n1", "n1", none, none⟩]⟩

/-- C7 counterexample: saving an edge whose `sourceHandle`/`targetHandle`
are absent stores them as `"main"`, and the subsequent load returns
`"main"` — not the submitted `null` — so the loaded edge is not identical
to the submitted one and the round-trip identity of the claim fails. -/
theorem c7_counterexample :
    updateWorkflowGraph c7Payload =
      .ok ⟨[⟨"n1", "MANUAL_TRIGGER", "MANUAL_TRIGGER",
             Json.obj [("x", .num 0), ("y", .num 0)], Json.obj []⟩],
           [⟨"conn-0", "n1", "n1", "main", "main"⟩]⟩
    ∧ (loadGraph ⟨[⟨"n1", "MANUAL_TRIGGER", "MANUAL_TRIGGER",
             Json.obj [("x", .num 0), ("y", .num 0)], Json.obj []⟩],
           [⟨"conn-0", "n1", "n1", "main", "main"⟩]⟩).2.map
        (fun e => some e.sourceHandle) = [some "main"]
    ∧ c7Payload.edges.map (fun e => e.sourceHandle) = [none]
    ∧ ([some "main"] : List (Option String)) ≠ [none] :=
  ⟨rfl, rfl, rfl, by decide⟩

/-- One saved node row, reloaded, agrees with the submitted node on `id`,
`type`, `position`, and on `data` when that was submitted non-falsy. -/
theorem saveNodeRow_load_spec (sn : SaveNode) (row : Node)
    (hab : saveNodeRow sn = some row) :
    (loadNode row).id = sn.id ∧ some (loadNode row).type = sn.type ∧
    (loadNode row).position = sn.position ∧
    (∀ d, sn.data = some d → jsFalsy d = false → (loadNode row).data = d) := by
  simp only [saveNodeRow] at hab
  split at hab
  · exact absurd hab (by simp)
  · rename_i t htype
    split at hab
    · have hrow : row = ⟨sn.id, strOrD sn.type "unknown", t, sn.position,
          (match sn.data with
           | none => Json.obj []
           | some d => if jsFalsy d then Json.obj [] else d)⟩ := by
        cases hab; rfl
      subst hrow
      refine ⟨rfl, by simp [loadNode, htype], rfl, ?_⟩
      intro d hd hfalsy
      simp only [loadNode, hd, hfalsy]
      simp [hfalsy]
    · exact absurd hab (by simp)

/-- Pointwise `saveNodeRow` success lifts to the per-node round-trip
relation over the whole list. -/
theorem forall2_saveNodeRow_load (l : List SaveNode) (rows : List Node)
    (h : List.Forall₂ (fun a b => saveNodeRow a = some b) l rows) :
    List.Forall₂ (fun (sn : SaveNode) (ln : LoadedNode) =>
        ln.id = sn.id ∧ some ln.type = sn.type ∧ ln.position = sn.position ∧
        (∀ d, sn.data = some d → jsFalsy d = false → ln.data = d))
      l (rows.map loadNode) := by
  induction h with
  | nil => exact .nil
  | cons hab _ ihtail => exact List.Forall₂.cons (saveNodeRow_load_spec _ _ hab) ihtail

/-- The saved edge rows, reloaded, agree with the submitted edges on
`source` and `target`, and on the handles when those were submitted as
non-empty strings. -/
theorem forall2_saveEdgeRow_load (l : List SaveEdge) (k : Nat) :
    List.Forall₂ (fun (se : SaveEdge) (le : LoadedEdge) =>
        le.source = se.source ∧ le.target = se.target ∧
        (∀ s, se.sourceHandle = some s → s ≠ "" → le.sourceHandle = s) ∧
        (∀ t, se.targetHandle = some t → t ≠ "" → le.targetHandle = t))
      l ((l.enumFrom k).map (fun p => loadEdge (saveEdgeRow p.1 p.2))) := by
  induction l generalizing k with
  | nil => exact .nil
  | cons se ses ih =>
    simp only [List.enumFrom, List.map_cons]
    refine List.Forall₂.cons ⟨rfl, rfl, ?_, ?_⟩ (ih (k + 1))
    · intro s hs hne
      simp [loadEdge, saveEdgeRow, strOrD, hs, hne]
    · intro t ht hne
      simp [loadEdge, saveEdgeRow, strOrD, ht, hne]

/-- C7 (amended): saving `{nodes, edges}` and then loading returns nodes
with identical `id`, `type` and `position` and with `data` identical
whenever it was submitted explicitly (and non-falsy), and edges with
identical `source` and `target` whose handles equal the submitted ones
whenever those were submitted as non-empty strings — absent or empty
handles load back as the default `"main"`, and absent `data` loads back as
`{}`. -/
theorem c7_roundtrip_amended (payload : SavePayload) (g : GraphState)
    (hupd : updateWorkflowGraph payload = .ok g) :
    List.Forall₂ (fun (sn : SaveNode) (ln : LoadedNode) =>
        ln.id = sn.id ∧ some ln.type = sn.type ∧ ln.position = sn.position ∧
        (∀ d, sn.data = some d → jsFalsy d = false → ln.data = d))
      payload.nodes (loadGraph g).1
    ∧ List.Forall₂ (fun (se : SaveEdge) (le : LoadedEdge) =>
        le.source = se.source ∧ le.target = se.target ∧
        (∀ s, se.sourceHandle = some s → s ≠ "" → le.sourceHandle = s) ∧
        (∀ t, se.targetHandle = some t → t ≠ "" → le.targetHandle = t))
      payload.edges (loadGraph g).2 := by
  simp only [updateWorkflowGraph] at hupd
  cases hmap : payload.nodes.mapM saveNodeRow with
  | none => rw [hmap] at hupd; exact absurd hupd (by simp)
  | some rows =>
    rw [hmap] at hupd
    have hg : g = ⟨rows, payload.edges.enum.map (fun p => saveEdgeRow p.1 p.2)⟩ := by
      cases hupd; rfl
    subst hg
    constructor
    · exact forall2_saveNodeRow_load payload.nodes rows
        (mapM_option_forall2 saveNodeRow payload.nodes rows hmap)
    · have h := forall2_saveEdgeRow_load payload.edges 0
      simpa [loadGraph, List.enum] using h

/-- C7 witness: the amended round-trip at a concrete payload whose node has
explicit type, position and data and whose edge carries explicit non-empty
handles. -/
theorem c7_witness :
    List.Forall₂ (fun (sn : SaveNode) (ln : LoadedNode) =>
        ln.id = sn.id ∧ some ln.type = sn.type ∧ ln.position = sn.position ∧
        (∀ d, sn.data = some d → jsFalsy d = false → ln.data = d))
      [⟨"n1", some "HTTP_REQUEST", Json.obj [("x", .num 3), ("y", .num 4)],
        some (Json.obj [("endpoint", .str "http://test/a")])⟩]
      (loadGraph ⟨[⟨"n1", "HTTP_REQUEST", "HTTP_REQUEST",
          Json.obj [("x", .num 3), ("y", .num 4)],
          Json.obj [("endpoint", .str "http://test/a")]⟩],
        [⟨"conn-0", "n1", "n1", "out1", "in1"⟩]⟩).1
    ∧ List.Forall₂ (fun (se : SaveEdge) (le : LoadedEdge) =>
        le.source = se.source ∧ le.target = se.target ∧
        (∀ s, se.sourceHandle = some s → s ≠ "" → le.sourceHandle = s) ∧
        (∀ t, se.targetHandle = some t → t ≠ "" → le.targetHandle = t))
      [⟨"n1", "n1", some "out1", some "in1"⟩]
      (loadGraph ⟨[⟨"n1", "HTTP_REQUEST", "HTTP_REQUEST",
          Json.obj [("x", .num 3), ("y", .num 4)],
          Json.obj [("endpoint", .str "http://test/a")]⟩],
        [⟨"conn-0", "n1", "n1", "out1", "in1"⟩]⟩).2 :=
  c7_roundtrip_amended
    ⟨[⟨"n1", some "HTTP_REQUEST", Json.obj [("x", .num 3), ("y", .num 4)],
       some (Json.obj [("endpoint", .str "http://test/a")])⟩],
     [⟨"n1", "n1", some "out1", some "in1"⟩]⟩
    ⟨[⟨"n1", "HTTP_REQUEST", "HTTP_REQUEST",
       Json.obj [("x", .num 3), ("y", .num 4)],
       Json.obj [("endpoint", .str "http://test/a")]⟩],
      [⟨"conn-0", "n1", "n1", "out1", "in1"⟩]⟩
    rfl

/-! ## Lemmas about the toposort model -/

theorem mem_addUnique {l : List String} {x y : String} :
    x ∈ addUnique l y ↔ x ∈ l ∨ x = y := by
  simp only [addUnique]
  split
  · rename_i hy
    constructor
    · exact Or.inl
    · rintro (h | rfl)
      · exact h
      · exact hy
  · simp

theorem mem_foldl_addUnique_of_mem {edges : List (String × String)} :
    ∀ {acc : List String} {x : String}, x ∈ acc →
    x ∈ edges.foldl (fun acc e => addUnique (addUnique acc e.1) e.2) acc := by
  induction edges with
  | nil => intro acc x h; exact h
  | cons e es ih =>
    intro acc x h
    exact ih (mem_addUnique.mpr (Or.inl (mem_addUnique.mpr (Or.inl h))))

theorem mem_uniqueNodes_of_mem_edges {edges : List (String × String)} {u v : String}
    (h : (u, v) ∈ edges) : u ∈ uniqueNodes edges ∧ v ∈ uniqueNodes edges := by
  unfold uniqueNodes
  suffices H : ∀ (l : List (String × String)) (acc : List String), (u, v) ∈ l →
      u ∈ l.foldl (fun acc e => addUnique (addUnique acc e.1) e.2) acc ∧
      v ∈ l.foldl (fun acc e => addUnique (addUnique acc e.1) e.2) acc by
    exact H edges [] h
  intro l
  induction l with
  | nil => intro acc h; simp at h
  | cons e es ih =>
    intro acc h
    simp only [List.foldl_cons]
    rcases List.mem_cons.mp h with h | h
    · subst h
      constructor
      · exact mem_foldl_addUnique_of_mem
          (mem_addUnique.mpr (Or.inl (mem_addUnique.mpr (Or.inr rfl))))
      · exact mem_foldl_addUnique_of_mem (mem_addUnique.mpr (Or.inr rfl))
    · exact ih _ h

theorem mem_dedupFirstAux {x : String} :
    ∀ {l seen : List String}, x ∈ dedupFirstAux seen l ↔ x ∈ l ∧ x ∉ seen := by
  intro l
  induction l with
  | nil => intro seen; simp [dedupFirstAux]
  | cons y ys ih =>
    intro seen
    simp only [dedupFirstAux]
    split
    · rename_i hy
      rw [ih]
      constructor
      · rintro ⟨h1, h2⟩
        exact ⟨List.mem_cons_of_mem _ h1, h2⟩
      · rintro ⟨h1, h2⟩
        rcases List.mem_cons.mp h1 with rfl | h1
        · exact absurd hy h2
        · exact ⟨h1, h2⟩
    · rename_i hy
      simp only [List.mem_cons, ih]
      constructor
      · rintro (rfl | ⟨h1, h2⟩)
        · exact ⟨Or.inl rfl, hy⟩
        · exact ⟨Or.inr h1, fun hs => h2 (Or.inr hs)⟩
      · rintro ⟨rfl | h1, h2⟩
        · exact Or.inl rfl
        · by_cases hxy : x = y
          · exact Or.inl hxy
          · exact Or.inr ⟨h1, by simp [hxy, h2]⟩

theorem mem_dedupFirst {x : String} {l : List String} :
    x ∈ dedupFirst l ↔ x ∈ l := by
  simp [dedupFirst, mem_dedupFirstAux]

theorem nodup_dedupFirstAux : ∀ (l seen : List String), (dedupFirstAux seen l).Nodup := by
  intro l
  induction l with
  | nil => intro seen; simp [dedupFirstAux]
  | cons y ys ih =>
    intro seen
    simp only [dedupFirstAux]
    split
    · exact ih seen
    · refine List.Nodup.cons ?_ (ih (y :: seen))
      intro hmem
      exact (mem_dedupFirstAux.mp hmem).2 (List.mem_cons_self _ _)

theorem nodup_dedupFirst (l : List String) : (dedupFirst l).Nodup :=
  nodup_dedupFirstAux l []

theorem dedupFirstAux_eq_self : ∀ (l seen : List String), l.Nodup →
    (∀ x ∈ l, x ∉ seen) → dedupFirstAux seen l = l := by
  intro l
  induction l with
  | nil => intro seen _ _; rfl
  | cons y ys ih =>
    intro seen hnd hsub
    simp only [dedupFirstAux]
    rw [if_neg (hsub y (List.mem_cons_self _ _))]
    congr 1
    refine ih (y :: seen) (List.Nodup.of_cons hnd) ?_
    intro x hx
    simp only [List.mem_cons, not_or]
    exact ⟨fun hxy => (List.nodup_cons.mp hnd).1 (hxy ▸ hx),
           hsub x (List.mem_cons_of_mem _ hx)⟩

theorem dedupFirst_eq_self {l : List String} (h : l.Nodup) : dedupFirst l = l :=
  dedupFirstAux_eq_self l [] h (by simp)

theorem mem_adjOf {edges : List (String × String)} {u v : String} :
    v ∈ adjOf edges u ↔ (u, v) ∈ edges := by
  simp only [adjOf, mem_dedupFirst, List.mem_filterMap]
  constructor
  · rintro ⟨e, he, hsome⟩
    by_cases h1 : e.1 = u
    · rw [if_pos h1] at hsome
      have : e = (u, v) := by
        cases e
        simp only [Option.some.injEq] at hsome
        simp_all
      exact this ▸ he
    · rw [if_neg h1] at hsome
      exact absurd hsome (by simp)
  · intro he
    exact ⟨(u, v), he, by simp⟩

/-- The output-ordering invariant of the DFS accumulator: whenever `u` has
been placed, all of its successors were placed strictly after it in the
list (the head of the accumulator is the front of the final output). -/
def OrderOK (adj : String → List String) (acc : List String) : Prop :=
  ∀ l₁ u l₂, acc = l₁ ++ u :: l₂ → ∀ v ∈ adj u, v ∈ l₂

theorem orderOK_nil (adj : String → List String) : OrderOK adj [] := by
  intro l₁ u l₂ heq
  exact absurd heq (by simp)

theorem orderOK_cons {adj : String → List String} {acc : List String} {x : String}
    (hOK : OrderOK adj acc) (hsub : ∀ v ∈ adj x, v ∈ acc) :
    OrderOK adj (x :: acc) := by
  intro l₁ u l₂ heq v hv
  cases l₁ with
  | nil =>
    simp only [List.nil_append, List.cons.injEq] at heq
    obtain ⟨rfl, rfl⟩ := heq
    exact hsub v hv
  | cons y l₁ =>
    simp only [List.cons_append, List.cons.injEq] at heq
    exact hOK l₁ u l₂ heq.2 v hv

/-- The invariant the library's DFS maintains between calls: `visited` is
exactly the placed nodes plus the current path, the path is disjoint from
the placed nodes, and the placed nodes are duplicate-free and ordered
compatibly with the edges. -/
structure DfsInv (adj : String → List String) (preds : List String) (s : TState) : Prop where
  visMem : ∀ x, x ∈ s.visited ↔ x ∈ s.acc ∨ x ∈ preds
  disj : ∀ x ∈ preds, x ∉ s.acc
  nodup : s.acc.Nodup
  ordered : OrderOK adj s.acc

/-- What a successful `visit` guarantees (see `visit_ok_spec`), lifted over
the children fold. -/
theorem visitFold_ok_spec (adj : String → List String) (nodes : List String) (fuel : Nat)
    (IH : ∀ (node : String) (preds : List String) (s s' : TState),
      visit adj nodes fuel node preds s = .ok s' → DfsInv adj preds s →
      DfsInv adj preds s' ∧ (∀ x ∈ s.visited, x ∈ s'.visited) ∧
      (∃ pre, s'.acc = pre ++ s.acc) ∧ node ∈ s'.visited ∧ node ∉ preds) :
    ∀ (cs : List String) (preds : List String) (s s' : TState),
      cs.foldlM (fun t c => visit adj nodes fuel c preds t) s = .ok s' →
      DfsInv adj preds s →
      DfsInv adj preds s' ∧ (∀ x ∈ s.visited, x ∈ s'.visited) ∧
      (∃ pre, s'.acc = pre ++ s.acc) ∧ (∀ c ∈ cs, c ∈ s'.visited ∧ c ∉ preds) := by
  intro cs
  induction cs with
  | nil =>
    intro preds s s' h hinv
    simp only [List.foldlM_nil] at h
    cases h
    exact ⟨hinv, fun x hx => hx, ⟨[], rfl⟩, by simp⟩
  | cons c cs ih =>
    intro preds s s' h hinv
    rw [List.foldlM_cons] at h
    obtain ⟨t, hv, hfold⟩ := exceptBind_eq_ok h
    obtain ⟨hinv₁, hmono₁, ⟨pre₁, hacc₁⟩, hcin, hcnp⟩ := IH c preds s t hv hinv
    obtain ⟨hinv₂, hmono₂, ⟨pre₂, hacc₂⟩, hrest⟩ := ih preds t s' hfold hinv₁
    refine ⟨hinv₂, fun x hx => hmono₂ x (hmono₁ x hx),
      ⟨pre₂ ++ pre₁, by rw [hacc₂, hacc₁, List.append_assoc]⟩, ?_⟩
    intro d hd
    rcases List.mem_cons.mp hd with rfl | hd
    · exact ⟨hmono₂ d hcin, hcnp⟩
    · exact hrest d hd

/-- Main specification of a successful `visit`: the invariant is preserved,
`visited` grows, the accumulator is only extended at the front, the visited
node ends up visited, and it was not on the path. -/
theorem visit_ok_spec (adj : String → List String) (nodes : List String) :
    ∀ (fuel : Nat) (node : String) (preds : List String) (s s' : TState),
      visit adj nodes fuel node preds s = .ok s' → DfsInv adj preds s →
      DfsInv adj preds s' ∧ (∀ x ∈ s.visited, x ∈ s'.visited) ∧
      (∃ pre, s'.acc = pre ++ s.acc) ∧ node ∈ s'.visited ∧ node ∉ preds := by
  intro fuel
  induction fuel with
  | zero =>
    intro node preds s s' h _
    exact absurd h (by simp [visit])
  | succ fuel ih =>
    intro node preds s s' h hinv
    simp only [visit] at h
    by_cases hp : node ∈ preds
    · rw [if_pos hp] at h; exact absurd h (by simp)
    · rw [if_neg hp] at h
      by_cases hn : node ∉ nodes
      · rw [if_pos hn] at h; exact absurd h (by simp)
      · rw [if_neg hn] at h
        by_cases hvis : node ∈ s.visited
        · rw [if_pos hvis] at h
          cases h
          exact ⟨hinv, fun x hx => hx, ⟨[], rfl⟩, hvis, hp⟩
        · rw [if_neg hvis] at h
          have hnacc : node ∉ s.acc := fun hmem => hvis ((hinv.visMem node).mpr (Or.inl hmem))
          have hinv₁ : DfsInv adj (node :: preds) ⟨node :: s.visited, s.acc⟩ := by
            constructor
            · intro x
              simp only [List.mem_cons]
              rw [hinv.visMem x]
              tauto
            · intro x hx
              rcases List.mem_cons.mp hx with rfl | hx
              · exact hnacc
              · exact hinv.disj x hx
            · exact hinv.nodup
            · exact hinv.ordered
          cases hfold : ((adj node).reverse.foldlM
              (fun t c => visit adj nodes fuel c (node :: preds) t)
              (⟨node :: s.visited, s.acc⟩ : TState)) with
          | error e => rw [hfold] at h; exact absurd h (by simp)
          | ok s₂ =>
            rw [hfold] at h
            have hs' : s' = ⟨s₂.visited, node :: s₂.acc⟩ := by cases h; rfl
            subst hs'
            obtain ⟨hinv₂, hmono₂, ⟨pre, hacc⟩, hchild⟩ :=
              visitFold_ok_spec adj nodes fuel ih ((adj node).reverse) (node :: preds)
                _ s₂ hfold hinv₁
            have hnodeacc₂ : node ∉ s₂.acc := hinv₂.disj node (List.mem_cons_self _ _)
            refine ⟨?_, ?_, ?_, ?_, hp⟩
            · constructor
              · intro x
                rw [hinv₂.visMem x]
                simp only [List.mem_cons]
                tauto
              · intro x hx
                simp only [List.mem_cons, not_or]
                exact ⟨fun hxn => hp (hxn ▸ hx), hinv₂.disj x (List.mem_cons_of_mem _ hx)⟩
              · exact List.nodup_cons.mpr ⟨hnodeacc₂, hinv₂.nodup⟩
              · apply orderOK_cons hinv₂.ordered
                intro v hvadj
                have hvrev : v ∈ (adj node).reverse := List.mem_reverse.mpr hvadj
                obtain ⟨hvvis, hvnp⟩ := hchild v hvrev
                rcases (hinv₂.visMem v).mp hvvis with hacc' | hpred
                · exact hacc'
                · exact absurd hpred hvnp
            · intro x hx
              exact hmono₂ x (List.mem_cons_of_mem _ hx)
            · exact ⟨node :: pre, by rw [hacc]; rfl⟩
            · exact hmono₂ node (List.mem_cons_self _ _)

/-- Specification of the roots loop: with an empty path, the invariant is
preserved, `visited` grows, and every processed root ends up visited. -/
theorem rootsLoop_ok_spec (adj : String → List String) (nodes : List String) (fuel : Nat) :
    ∀ (roots : List String) (s s' : TState),
      rootsLoop adj nodes fuel roots s = .ok s' →
      DfsInv adj [] s →
      DfsInv adj [] s' ∧ (∀ x ∈ s.visited, x ∈ s'.visited) ∧ (∀ r ∈ roots, r ∈ s'.visited) := by
  intro roots
  induction roots with
  | nil =>
    intro s s' h hinv
    simp only [rootsLoop] at h
    cases h
    exact ⟨hinv, fun x hx => hx, by simp⟩
  | cons r rs ih =>
    intro s s' h hinv
    simp only [rootsLoop] at h
    by_cases hr : r ∈ s.visited
    · rw [if_pos hr] at h
      obtain ⟨hinv', hmono, hroots⟩ := ih s s' h hinv
      refine ⟨hinv', hmono, ?_⟩
      intro x hx
      rcases List.mem_cons.mp hx with rfl | hx
      · exact hmono x hr
      · exact hroots x hx
    · rw [if_neg hr] at h
      cases hv : visit adj nodes fuel r [] s with
      | error e => rw [hv] at h; exact absurd h (by simp)
      | ok t =>
        rw [hv] at h
        obtain ⟨hinvt, hmono₁, _, hrin, _⟩ := visit_ok_spec adj nodes fuel r [] s t hv hinv
        obtain ⟨hinv', hmono₂, hroots⟩ := ih t s' h hinvt
        refine ⟨hinv', fun x hx => hmono₂ x (hmono₁ x hx), ?_⟩
        intro x hx
        rcases List.mem_cons.mp hx with rfl | hx
        · exact hmono₂ x hrin
        · exact hroots x hx

/-- The invariant holds of the initial DFS state. -/
theorem dfsInv_init (adj : String → List String) : DfsInv adj [] ⟨[], []⟩ := by
  constructor
  · intro x; simp
  · intro x hx; simp at hx
  · exact List.nodup_nil
  · exact orderOK_nil adj

/-- What a successful run of the toposort library guarantees: the output is
duplicate-free, ordered compatibly with the edges, and contains every edge
endpoint. -/
theorem toposortIds_ok_spec (edges : List (String × String)) (L : List String)
    (h : toposortIds edges = .ok L) :
    L.Nodup ∧ OrderOK (adjOf edges) L ∧ ∀ n ∈ uniqueNodes edges, n ∈ L := by
  simp only [toposortIds] at h
  split at h
  · exact absurd h (by simp)
  · cases hloop : rootsLoop (adjOf edges) (uniqueNodes edges)
        ((uniqueNodes edges).length + 1) (uniqueNodes edges).reverse ⟨[], []⟩ with
    | error e => rw [hloop] at h; exact absurd h (by simp)
    | ok s =>
      rw [hloop] at h
      have hL : L = s.acc := by cases h; rfl
      subst hL
      obtain ⟨hinv, _, hroots⟩ := rootsLoop_ok_spec (adjOf edges) (uniqueNodes edges)
        ((uniqueNodes edges).length + 1) (uniqueNodes edges).reverse ⟨[], []⟩ s hloop
        (dfsInv_init (adjOf edges))
      refine ⟨hinv.nodup, hinv.ordered, ?_⟩
      intro n hn
      have hnvis : n ∈ s.visited := hroots n (List.mem_reverse.mpr hn)
      rcases (hinv.visMem n).mp hnvis with hacc | hpred
      · exact hacc
      · simp at hpred

/-- Every edge of a successful toposort run is witnessed by a decomposition
of the output placing the source strictly before the target. -/
theorem toposortIds_edge_before (edges : List (String × String)) (L : List String)
    (h : toposortIds edges = .ok L) {u v : String} (he : (u, v) ∈ edges) :
    ∃ l₁ l₂ l₃, L = l₁ ++ u :: (l₂ ++ v :: l₃) := by
  obtain ⟨hnd, hord, hcomplete⟩ := toposortIds_ok_spec edges L h
  have hu : u ∈ L := hcomplete u (mem_uniqueNodes_of_mem_edges he).1
  obtain ⟨l₁, l₂', hdecomp⟩ := List.append_of_mem hu
  have hv : v ∈ l₂' := hord l₁ u l₂' hdecomp v (mem_adjOf.mpr he)
  obtain ⟨l₂, l₃, hdecomp₂⟩ := List.append_of_mem hv
  exact ⟨l₁, l₂, l₃, by rw [hdecomp, hdecomp₂]⟩

/-- In a duplicate-free list decomposed as `l₁ ++ u :: l₂ ++ v :: l₃`, the
index of `u` is strictly below the index of `v`. -/
theorem indexOf_lt_of_decomp (u v : String) (l₁ l₂ l₃ : List String)
    (hnd : (l₁ ++ u :: (l₂ ++ v :: l₃)).Nodup) :
    (l₁ ++ u :: (l₂ ++ v :: l₃)).indexOf u < (l₁ ++ u :: (l₂ ++ v :: l₃)).indexOf v := by
  rw [List.nodup_append] at hnd
  obtain ⟨hnd₁, hnd₂, hdisj⟩ := hnd
  have hu₁ : u ∉ l₁ := fun hu => hdisj hu (List.mem_cons_self _ _)
  have hv₁ : v ∉ l₁ := fun hv => hdisj hv
    (List.mem_cons_of_mem _ (List.mem_append_right _ (List.mem_cons_self _ _)))
  obtain ⟨hu₂, hnd₃⟩ := List.nodup_cons.mp hnd₂
  have huv : u ≠ v := fun he =>
    hu₂ (he ▸ List.mem_append_right _ (List.mem_cons_self _ _))
  have hv₂ : v ∉ l₂ := by
    rw [List.nodup_append] at hnd₃
    exact fun hv => hnd₃.2.2 hv (List.mem_cons_self _ _)
  rw [List.indexOf_append_of_not_mem hu₁, List.indexOf_append_of_not_mem hv₁,
    List.indexOf_cons_self, List.indexOf_cons_ne _ huv,
    List.indexOf_append_of_not_mem hv₂, List.indexOf_cons_self]
  omega

/-- `nodeMapGet` only succeeds on an id carried by one of the nodes, and
then returns a node with that id. -/
theorem nodeMapGet_spec (nodes : List Node) (i : String) :
    (∀ n, nodeMapGet nodes i = some n → n.id = i) ∧
    ((nodeMapGet nodes i).isSome ↔ i ∈ nodes.map Node.id) := by
  constructor
  · intro n hn
    have := List.find?_some hn
    simpa using this
  · simp only [nodeMapGet, List.find?_isSome]
    constructor
    · rintro ⟨n, hn, hid⟩
      exact List.mem_map.mpr ⟨n, List.mem_reverse.mp hn, by simpa using hid⟩
    · rintro hmem
      obtain ⟨n, hn, hid⟩ := List.mem_map.mp hmem
      exact ⟨n, List.mem_reverse.mpr hn, by simpa using hid⟩

/-- Mapping the ids over the id-to-node resolution step yields exactly the
ids that resolve, in order. -/
theorem map_id_filterMap_nodeMapGet (nodes : List Node) :
    ∀ ids : List String,
      (ids.filterMap (fun id => nodeMapGet nodes id)).map Node.id =
        ids.filter (fun i => (nodeMapGet nodes i).isSome) := by
  intro ids
  induction ids with
  | nil => rfl
  | cons i rest ih =>
    simp only [List.filterMap_cons, List.filter_cons]
    cases hget : nodeMapGet nodes i with
    | none => simpa [hget] using ih
    | some n =>
      have hid : n.id = i := (nodeMapGet_spec nodes i).1 n hget
      simp [hget, hid, ih]

/-- A decomposition survives `filter` when both distinguished elements pass
the filter. -/
theorem filter_decomp (p : String → Bool) (u v : String) (l₁ l₂ l₃ : List String)
    (hu : p u = true) (hv : p v = true) :
    (l₁ ++ u :: (l₂ ++ v :: l₃)).filter p =
      l₁.filter p ++ u :: (l₂.filter p ++ v :: l₃.filter p) := by
  simp [List.filter_append, List.filter_cons, hu, hv]

/-- C3: order respects edges — whenever `topologicalSort` returns a
sequence `S`, every connection `u→v` whose endpoints are ids of input nodes
satisfies `indexOf(u, S) < indexOf(v, S)` (on cyclic inputs, and on inputs
where the self-edge defect of C2 fires, no sequence is returned and the
claim is vacuous). -/
theorem c3_sort_respects_connections (nodes : List Node) (connections : List Connection)
    (S : List Node) (c : Connection)
    (hok : topologicalSort nodes connections = .ok S)
    (hc : c ∈ connections)
    (hu : c.fromNodeId ∈ nodes.map Node.id)
    (hv : c.toNodeId ∈ nodes.map Node.id) :
    (S.map Node.id).indexOf c.fromNodeId < (S.map Node.id).indexOf c.toNodeId := by
  simp only [topologicalSort] at hok
  split at hok
  · rename_i hlen
    rw [List.length_eq_zero] at hlen
    subst hlen
    exact absurd hc (List.not_mem_nil c)
  · split at hok
    · exact absurd hok (by simp)
    · exact absurd hok (by simp)
    · exact absurd hok (by simp)
    · rename_i ids hids
      have hS : S = (dedupFirst ids).filterMap (fun id => nodeMapGet nodes id) := by
        cases hok; rfl
      obtain ⟨hnd, hord, hcomp⟩ := toposortIds_ok_spec _ ids hids
      have he : (c.fromNodeId, c.toNodeId) ∈
          connections.map (fun c => (c.fromNodeId, c.toNodeId)) ++
            (nodes.filter (fun n => n.id ∉ connections.foldl
              (fun acc c => addUnique (addUnique acc c.fromNodeId) c.toNodeId) [])).map
              (fun n => (n.id, n.id)) :=
        List.mem_append_left _ (List.mem_map.mpr ⟨c, hc, rfl⟩)
      obtain ⟨l₁, l₂, l₃, hdecomp⟩ := toposortIds_edge_before _ ids hids he
      have hpu : (fun i => (nodeMapGet nodes i).isSome) c.fromNodeId = true := by
        simpa using (nodeMapGet_spec nodes c.fromNodeId).2.mpr hu
      have hpv : (fun i => (nodeMapGet nodes i).isSome) c.toNodeId = true := by
        simpa using (nodeMapGet_spec nodes c.toNodeId).2.mpr hv
      have hSmap : S.map Node.id = ids.filter (fun i => (nodeMapGet nodes i).isSome) := by
        rw [hS, dedupFirst_eq_self hnd]
        exact map_id_filterMap_nodeMapGet nodes ids
      rw [hSmap, hdecomp, filter_decomp (fun i => (nodeMapGet nodes i).isSome)
        c.fromNodeId c.toNodeId l₁ l₂ l₃ hpu hpv]
      apply indexOf_lt_of_decomp
      rw [← filter_decomp (fun i => (nodeMapGet nodes i).isSome)
        c.fromNodeId c.toNodeId l₁ l₂ l₃ hpu hpv, ← hdecomp]
      exact hnd.filter _

/-- Fixture for the C3 witness: node `a`. -/
def chainNodeA : Node := ⟨"a", "a", "MANUAL_TRIGGER", .obj [], .obj []⟩

/-- Fixture for the C3 witness: node `b`. -/
def chainNodeB : Node := ⟨"b", "b", "HTTP_REQUEST", .obj [], .obj []⟩

/-- Fixture for the C3 witness: the connection `a → b`. -/
def chainConn : Connection := ⟨"c1", "a", "b", "main", "main"⟩

/-- C3 witness: on the concrete chain `a → b` the sort succeeds and places
`a` strictly before `b`. -/
theorem c3_witness :
    topologicalSort [chainNodeA, chainNodeB] [chainConn] = .ok [chainNodeA, chainNodeB]
    ∧ (([chainNodeA, chainNodeB].map Node.id).indexOf "a" <
        ([chainNodeA, chainNodeB].map Node.id).indexOf "b") :=
  ⟨rfl,
   c3_sort_respects_connections [chainNodeA, chainNodeB] [chainConn]
     [chainNodeA, chainNodeB] chainConn rfl (by simp) (by decide) (by decide)⟩

/-- One step of the connection graph: a connection leading from `u` to `v`. -/
def ConnStep (connections : List Connection) (u v : String) : Prop :=
  ∃ c ∈ connections, c.fromNodeId = u ∧ c.toNodeId = v

/-- The connection graph contains a (directed, possibly self-) cycle. -/
def HasCycle (connections : List Connection) : Prop :=
  ∃ u, Relation.TransGen (ConnStep connections) u u

/-- A successful toposort run excludes any cycle among its edges. -/
theorem toposortIds_no_cycle (edges : List (String × String)) (L : List String)
    (h : toposortIds edges = .ok L) (u : String)
    (hcyc : Relation.TransGen (fun a b => (a, b) ∈ edges) u u) : False := by
  obtain ⟨hnd, _, _⟩ := toposortIds_ok_spec edges L h
  have step_lt : ∀ a b, (a, b) ∈ edges → L.indexOf a < L.indexOf b := by
    intro a b hab
    obtain ⟨l₁, l₂, l₃, hdec⟩ := toposortIds_edge_before edges L h hab
    rw [hdec]
    exact indexOf_lt_of_decomp a b l₁ l₂ l₃ (hdec ▸ hnd)
  have mono : ∀ a b, Relation.TransGen (fun a b => (a, b) ∈ edges) a b →
      L.indexOf a < L.indexOf b := by
    intro a b htg
    induction htg with
    | single hab => exact step_lt _ _ hab
    | tail _ hab ih => exact lt_trans ih (step_lt _ _ hab)
  exact lt_irrefl _ (mono u u hcyc)

/-- With enough fuel (within the depth bound maintained along the DFS
path), `visit` never reports the fuel artifact or an unknown node: it
either succeeds or reports a cyclic dependency. -/
theorem visit_progress (adj : String → List String) (nodes : List String)
    (hadj : ∀ u v, v ∈ adj u → v ∈ nodes) :
    ∀ (fuel : Nat) (node : String) (preds : List String) (s : TState),
      preds.Nodup → (∀ x ∈ preds, x ∈ nodes) → node ∈ nodes →
      nodes.length + 1 ≤ fuel + preds.length →
      (∃ t, visit adj nodes fuel node preds s = .ok t) ∨
      (∃ n, visit adj nodes fuel node preds s = .error (.cyclic n)) := by
  intro fuel
  induction fuel with
  | zero =>
    intro node preds s hnd hsub _ hlen
    exfalso
    have h1 : preds.toFinset.card = preds.length := List.toFinset_card_of_nodup hnd
    have h2 : preds.toFinset ⊆ nodes.toFinset := by
      intro x hx
      rw [List.mem_toFinset] at hx ⊢
      exact hsub x hx
    have h3 := Finset.card_le_card h2
    have h4 : nodes.toFinset.card ≤ nodes.length := nodes.toFinset_card_le
    omega
  | succ fuel ih =>
    intro node preds s hnd hsub hnode hlen
    simp only [visit]
    by_cases hp : node ∈ preds
    · rw [if_pos hp]
      exact Or.inr ⟨node, rfl⟩
    · rw [if_neg hp, if_neg (by simpa using hnode)]
      by_cases hvis : node ∈ s.visited
      · rw [if_pos hvis]
        exact Or.inl ⟨s, rfl⟩
      · rw [if_neg hvis]
        have hfold : ∀ (cs : List String), (∀ c ∈ cs, c ∈ nodes) → ∀ (t : TState),
            (∃ t', cs.foldlM (fun t c => visit adj nodes fuel c (node :: preds) t) t = .ok t') ∨
            (∃ n, cs.foldlM (fun t c => visit adj nodes fuel c (node :: preds) t) t =
              .error (.cyclic n)) := by
          intro cs
          induction cs with
          | nil =>
            intro _ t
            exact Or.inl ⟨t, rfl⟩
          | cons c cs ihc =>
            intro hcs t
            rw [List.foldlM_cons]
            rcases ih c (node :: preds) t (List.nodup_cons.mpr ⟨hp, hnd⟩)
                (by
                  intro x hx
                  rcases List.mem_cons.mp hx with rfl | hx
                  · exact hnode
                  · exact hsub x hx)
                (hcs c (List.mem_cons_self _ _))
                (by simp only [List.length_cons]; omega) with ⟨t', ht'⟩ | ⟨n, hn⟩
            · simp only [ht', exceptBind_ok]
              exact ihc (fun c' hc' => hcs c' (List.mem_cons_of_mem _ hc')) t'
            · rw [hn]
              exact Or.inr ⟨n, rfl⟩
        rcases hfold ((adj node).reverse)
            (fun c hc => hadj node c (List.mem_reverse.mp hc))
            ⟨node :: s.visited, s.acc⟩ with ⟨t', ht'⟩ | ⟨n, hn⟩
        · rw [ht']
          exact Or.inl ⟨_, rfl⟩
        · rw [hn]
          exact Or.inr ⟨n, rfl⟩

/-- The roots loop, run with the fuel `toposortIds` supplies, either
succeeds or reports a cyclic dependency. -/
theorem rootsLoop_progress (adj : String → List String) (nodes : List String)
    (hadj : ∀ u v, v ∈ adj u → v ∈ nodes) :
    ∀ (roots : List String), (∀ r ∈ roots, r ∈ nodes) → ∀ (s : TState),
      (∃ t, rootsLoop adj nodes (nodes.length + 1) roots s = .ok t) ∨
      (∃ n, rootsLoop adj nodes (nodes.length + 1) roots s = .error (.cyclic n)) := by
  intro roots
  induction roots with
  | nil =>
    intro _ s
    exact Or.inl ⟨s, rfl⟩
  | cons r rs ih =>
    intro hroots s
    simp only [rootsLoop]
    by_cases hr : r ∈ s.visited
    · rw [if_pos hr]
      exact ih (fun x hx => hroots x (List.mem_cons_of_mem _ hx)) s
    · rw [if_neg hr]
      rcases visit_progress adj nodes hadj (nodes.length + 1) r [] s List.nodup_nil
          (by simp) (hroots r (List.mem_cons_self _ _)) (by simp) with ⟨t, ht⟩ | ⟨n, hn⟩
      · rw [ht]
        exact ih (fun x hx => hroots x (List.mem_cons_of_mem _ hx)) t
      · rw [hn]
        exact Or.inr ⟨n, rfl⟩

/-- The toposort library either succeeds or reports a cyclic dependency:
the unknown-node check never fires (the node universe is derived from the
edges themselves) and the fuel artifact is unreachable. -/
theorem toposortIds_ok_or_cyclic (edges : List (String × String)) :
    (∃ L, toposortIds edges = .ok L) ∨ (∃ n, toposortIds edges = .error (.cyclic n)) := by
  simp only [toposortIds]
  have hany : (edges.any fun e =>
      decide (¬ e.1 ∈ uniqueNodes edges ∨ ¬ e.2 ∈ uniqueNodes edges)) = false := by
    rw [List.any_eq_false]
    intro e he
    have h := mem_uniqueNodes_of_mem_edges (u := e.1) (v := e.2) (by simpa using he)
    simp [h.1, h.2]
  rw [hany]
  simp only [Bool.false_eq_true, if_false]
  rcases rootsLoop_progress (adjOf edges) (uniqueNodes edges)
      (fun u v hv => (mem_uniqueNodes_of_mem_edges (mem_adjOf.mp hv)).2)
      (uniqueNodes edges).reverse
      (fun r hr => List.mem_reverse.mp hr) ⟨[], []⟩ with ⟨t, ht⟩ | ⟨n, hn⟩
  · rw [ht]
    exact Or.inl ⟨t.acc, rfl⟩
  · rw [hn]
    exact Or.inr ⟨n, rfl⟩

/-- C4: any input whose connection graph contains a cycle makes the
scheduler raise the cycle error, and the workflow execution fails with that
error from the prepare-workflow step, before the node loop — so no executor
runs (the source's loop contains no executor invocation at all, cf. C1). -/
theorem c4_cycle_rejected_before_execution
    (env : HttpEnv) (db : List Workflow) (wid : String) (wf : Workflow)
    (initData : Option Context)
    (hwid : wid ≠ "")
    (hfind : db.find? (fun w => w.id == wid) = some wf)
    (hcyc : HasCycle wf.connections) :
    topologicalSort wf.nodes wf.connections = .error "Workflow contains a cycle"
    ∧ executeWorkflow env db (some wid) initData =
        .error (.retriable "Workflow contains a cycle") := by
  have hsort : topologicalSort wf.nodes wf.connections = .error "Workflow contains a cycle" := by
    obtain ⟨u, htg⟩ := hcyc
    have hstep : ∃ c, c ∈ wf.connections := by
      cases htg with
      | single h => obtain ⟨c, hc, _⟩ := h; exact ⟨c, hc⟩
      | tail _ h => obtain ⟨c, hc, _⟩ := h; exact ⟨c, hc⟩
    have hne : ¬ wf.connections.length = 0 := by
      obtain ⟨c, hc⟩ := hstep
      intro h0
      rw [List.length_eq_zero] at h0
      rw [h0] at hc
      exact List.not_mem_nil c hc
    simp only [topologicalSort]
    rw [if_neg hne]
    rcases toposortIds_ok_or_cyclic
        (wf.connections.map (fun c => (c.fromNodeId, c.toNodeId)) ++
          (wf.nodes.filter (fun n => n.id ∉ wf.connections.foldl
            (fun acc c => addUnique (addUnique acc c.fromNodeId) c.toNodeId) [])).map
            (fun n => (n.id, n.id))) with ⟨L, hL⟩ | ⟨n, hn⟩
    · exfalso
      have hmono : ∀ a b, ConnStep wf.connections a b →
          (a, b) ∈ wf.connections.map (fun c => (c.fromNodeId, c.toNodeId)) ++
            (wf.nodes.filter (fun n => n.id ∉ wf.connections.foldl
              (fun acc c => addUnique (addUnique acc c.fromNodeId) c.toNodeId) [])).map
              (fun n => (n.id, n.id)) := by
        rintro a b ⟨c, hc, ha, hb⟩
        exact List.mem_append_left _ (List.mem_map.mpr ⟨c, hc, by rw [ha, hb]⟩)
      exact toposortIds_no_cycle _ L hL u (Relation.TransGen.mono hmono htg)
    · rw [hn]
  refine ⟨hsort, ?_⟩
  simp only [executeWorkflow]
  rw [if_neg (by simpa using hwid)]
  simp only [hfind, hsort]

/-- Fixture for the C4 witness: node `x`. -/
def cycNodeX : Node := ⟨"x", "x", "MANUAL_TRIGGER", .obj [], .obj []⟩

/-- Fixture for the C4 witness: node `y`. -/
def cycNodeY : Node := ⟨"y", "y", "HTTP_REQUEST", .obj [], .obj []⟩

/-- Fixture for the C4 witness: the connection `x → y`. -/
def cycConnXY : Connection := ⟨"c1", "x", "y", "main", "main"⟩

/-- Fixture for the C4 witness: the connection `y → x`. -/
def cycConnYX : Connection := ⟨"c2", "y", "x", "main", "main"⟩

/-- Fixture for the C4 witness: the two-node cyclic workflow (scenario S4). -/
def cycWorkflow : Workflow :=
  ⟨"wcyc", "cyc", [cycNodeX, cycNodeY], [cycConnXY, cycConnYX]⟩

/-- C4 witness: on the concrete cycle `x → y → x`, the sort and the whole
execution fail with the cycle error. -/
theorem c4_witness :
    topologicalSort cycWorkflow.nodes cycWorkflow.connections =
      .error "Workflow contains a cycle"
    ∧ executeWorkflow s2Env [cycWorkflow] (some "wcyc") none =
        .error (.retriable "Workflow contains a cycle") :=
  c4_cycle_rejected_before_execution s2Env [cycWorkflow] "wcyc" cycWorkflow none
    (by decide) rfl
    ⟨"x", Relation.TransGen.tail
      (Relation.TransGen.single ⟨cycConnXY, List.Mem.head _, rfl, rfl⟩)
      ⟨cycConnYX, List.Mem.tail _ (List.Mem.head _), rfl, rfl⟩⟩
